import Mathlib

/-!
Verification development for the colormap-creator application.

The repository's core (src/main.py) edits a gradient (an ordered list of
color stops), previews a dense sample array, and saves/loads the gradient
as a generated Python module.  The gradient object itself and its linear
interpolation live in the third-party plotpy/qwt libraries; those parts
are modelled from the specification and are marked as such.  Everything
else is translated directly from src/main.py.
-/

/-- An 8-bit RGB color, the (red, green, blue) channels as stored in a
QColor / written to the saved artifact. -/
abbrev Color := ℕ × ℕ × ℕ

/-- A normalized color as written in the artifact's `rgb_colors` list:
three channels on the 0-1 scale. -/
abbrev NColor := ℚ × ℚ × ℚ

/-- A color stop: a position in [0,1] paired with its 8-bit color. -/
abbrev ColorStop := ℚ × Color

/-- A gradient: the list of color stops ordered by position. -/
abbrev Gradient := List ColorStop

/-- Clamp an integer channel value to the 8-bit range [0,255]. -/
def clamp255 (z : ℤ) : ℕ := (max 0 (min 255 z)).toNat

/-- Round a rational to the nearest integer, halves away from zero for
nonnegative inputs (the qRound convention). -/
def qround (x : ℚ) : ℤ := ⌊x + 1/2⌋

/-- Modelled from the spec: linear interpolation of one 8-bit channel,
`channel = round(lo.channel + t × (hi.channel − lo.channel))`, clamped to
[0,255] (spec §4.1; the implementation is qwt's QwtLinearColorMap, which
is not part of this repository). -/
def lerpChannel (lo hi : ℕ) (t : ℚ) : ℕ :=
  clamp255 (qround ((lo : ℚ) + t * ((hi : ℚ) - (lo : ℚ))))

/-- Modelled from the spec: interpolate a color between the bracketing
stops `lo` and `hi` at position `p`, each channel independently, with
`t = (p − lo.position) / (hi.position − lo.position)` (spec §4.1). -/
def lerpStop (lo hi : ColorStop) (p : ℚ) : Color :=
  let t := (p - lo.1) / (hi.1 - lo.1)
  (lerpChannel lo.2.1 hi.2.1 t, lerpChannel lo.2.2.1 hi.2.2.1 t,
   lerpChannel lo.2.2.2 hi.2.2.2 t)

/-- Modelled from the spec: walk the stops after the first one, carrying
the last stop `lo` seen at or below the sampled position.  A position that
hits a stop exactly returns that stop's color; a position strictly between
two adjacent stops is interpolated; a position above the last stop takes
the last stop's color (spec §4.1). -/
def sampleGo (lo : ColorStop) : List ColorStop → ℚ → Color
  | [], _ => lo.2
  | hi :: rest, p =>
    if p = hi.1 then hi.2
    else if p < hi.1 then lerpStop lo hi p
    else sampleGo hi rest p

/-- Modelled from the spec: the gradient sampler `colormap.rgb(interval,
pos)` used by src/main.py (update_tables line 146, save_colormap line 229).
The position is clamped to [0,1]; a position at or below the first stop
takes the first stop's color (spec §4.1). -/
def sample (g : Gradient) (p : ℚ) : Color :=
  let q := max 0 (min 1 p)
  match g with
  | [] => (0, 0, 0)
  | s :: rest => if q ≤ s.1 then s.2 else sampleGo s rest q

/-- The dense sample position generator of src/main.py: `for i in
range(num_colors): pos = i / (num_colors - 1)` (update_tables lines
144-145; save_colormap lines 226-227 with num_colors fixed to 512). -/
def densePositions (num_colors : ℕ) : List ℚ :=
  (List.range num_colors).map (fun i : ℕ => (i : ℚ) / ((num_colors : ℚ) - 1))

/-- Rounding of a real to 6 decimal places, the effect of the `%.6f`
format used for every position written by save_colormap. -/
def round6 (x : ℚ) : ℚ := (⌊x * 1000000 + 1/2⌋ : ℚ) / 1000000

/-- Modelled from the spec: quantization of a normalized (0-1 scale) float
channel to an 8-bit channel (QColor.fromRgbF followed by .rgb(), third
party, not part of this repository). -/
def q8 (x : ℚ) : ℕ := clamp255 (qround (x * 255))

/-- Modelled from the spec: quantization of a normalized color triple to
an 8-bit color (used by load_colormap's parallel-arrays branch). -/
def qcolor (c : NColor) : Color := (q8 c.1, q8 c.2.1, q8 c.2.2)

/-- Modelled from the spec: insertion of a stop into the position-ordered
stop list (the colormap keeps its stops sorted by position with unique
positions, spec §3; inserting at an existing position replaces that
stop). -/
def insertStop : Gradient → ℚ → Color → Gradient
  | [], p, c => [(p, c)]
  | s :: rest, p, c =>
    if p < s.1 then (p, c) :: s :: rest
    else if p = s.1 then (p, c) :: rest
    else s :: insertStop rest p c

/-- Modelled from the spec: the EditableColormap two-color constructor
(plotpy, not part of this repository): the two colors become the boundary
stops at positions 0.0 and 1.0 (spec §4.3 decode shape 2). -/
def EditableColormap_mk (c1 c2 : Color) : Gradient := [(0, c1), (1, c2)]

/-- Modelled from the spec: `colormap.addColorStop(pos, rgb)` adds an
interior stop; positions outside the open interval (0,1) are ignored,
keeping the boundary stops in place (spec §3 and §4.3: intermediate pairs
become interior stops). -/
def addColorStop (g : Gradient) (p : ℚ) (c : Color) : Gradient :=
  if 0 < p ∧ p < 1 then insertStop g p c else g

/-- Fold a list of (position, color) pairs into a gradient with
addColorStop, in list order. -/
def addStops (g : Gradient) (l : List (ℚ × Color)) : Gradient :=
  l.foldl (fun acc t => addColorStop acc t.1 t.2) g

/-- The gradient built by the `create_colormap` factory that save_colormap
writes into the artifact (src/main.py lines 198-214): an EditableColormap
from the first and last stop colors, then one addColorStop per interior
stop with its position formatted `%.6f` and its exact 8-bit color. -/
def emitted_create_colormap (g : Gradient) : Gradient :=
  match g with
  | [] => []
  | s :: rest =>
    let lastStop := (s :: rest).getLast?.getD s
    addStops (EditableColormap_mk s.2 lastStop.2)
      (((s :: rest).drop 1).dropLast.map (fun t => (round6 t.1, t.2)))

/-- The saved artifact, field for field the module that executing the file
written by save_colormap (src/main.py lines 166-259) produces:
`color_positions` (positions formatted `%.6f`), `rgb_colors` (channels on
the 0-1 scale formatted `%.6f`), the `create_colormap` factory's result,
the fixed 512-element array returned by the emitted zero-parameter
`get_rgb_array()`, and the `%.6f`-formatted positions returned by
`get_positions()`. -/
structure Artifact where
  color_positions : List ℚ
  rgb_colors : List NColor
  create_colormap : Gradient
  get_rgb_array : List Color
  get_positions : List ℚ

/-- The encoder, src/main.py save_colormap lines 183-259 (the file-dialog
and file-writing I/O around it is modelled separately). -/
def save_colormap (g : Gradient) : Artifact :=
  { color_positions := g.map (fun s => round6 s.1)
    rgb_colors := g.map (fun s =>
      (round6 ((s.2.1 : ℚ) / 255), round6 ((s.2.2.1 : ℚ) / 255),
       round6 ((s.2.2.2 : ℚ) / 255)))
    create_colormap := emitted_create_colormap g
    get_rgb_array := (densePositions 512).map (sample g)
    get_positions := (densePositions 512).map round6 }

/-- A loaded Python module as load_colormap probes it: each field is
`some` when the module has the corresponding attribute. -/
structure PyModule where
  create_colormap : Option Gradient
  color_positions : Option (List ℚ)
  rgb_colors : Option (List NColor)

/-- The exceptions load_colormap's decoding can raise (both are caught by
its outer handler and shown in the error dialog). -/
inductive LoadErr where
  | formatError : LoadErr
  | indexError : LoadErr
deriving DecidableEq

/-- The (position, color) pairs read by load_colormap's rebuild loop
`for i in range(1, len(color_positions) - 1)` (src/main.py lines 307-311):
indices 1 .. len(color_positions) − 2 of both arrays. -/
def interiorPairs (ps : List ℚ) (cs : List NColor) : List (ℚ × Color) :=
  ((ps.drop 1).take (ps.length - 2)).zip
    (((cs.drop 1).take (ps.length - 2)).map qcolor)

/-- The decoder, src/main.py load_colormap lines 281-316: a module with
create_colormap is used directly; otherwise a module with both
color_positions and rgb_colors is rebuilt from the first and last colors
plus the interior pairs (an out-of-range index raises IndexError);
otherwise ValueError (the format error) is raised. -/
def load_colormap (m : PyModule) : Except LoadErr Gradient :=
  match m.create_colormap with
  | some g => .ok g
  | none =>
    match m.color_positions, m.rgb_colors with
    | some ps, some cs =>
      match cs.head?, cs.getLast? with
      | some c0, some cl =>
        if ps.length ≤ 2 ∨ ps.length - 1 ≤ cs.length then
          .ok (addStops (EditableColormap_mk (qcolor c0) (qcolor cl))
            (interiorPairs ps cs))
        else .error .indexError
      | _, _ => .error .indexError
    | _, _ => .error .formatError

/-- The module obtained by importing a file written by save_colormap: it
has all three attributes. -/
def toModule (a : Artifact) : PyModule :=
  { create_colormap := some a.create_colormap
    color_positions := some a.color_positions
    rgb_colors := some a.rgb_colors }

/-- The dense sample generator produces its samples at `i / (N - 1)`:
length, first, last and the general position formula, for any count
of at least two. -/
theorem densePositions_spec (N : ℕ) (hN : 2 ≤ N) :
    (densePositions N).length = N ∧
    (densePositions N).head? = some 0 ∧
    (densePositions N).getLast? = some 1 ∧
    ∀ i : ℕ, i < N → (densePositions N)[i]? = some ((i : ℚ) / ((N : ℚ) - 1)) := by
  have hget : ∀ i : ℕ, i < N →
      (densePositions N)[i]? = some ((i : ℚ) / ((N : ℚ) - 1)) := by
    intro i hi
    simp only [densePositions, List.getElem?_map, List.getElem?_range hi,
      Option.map_some']
  have hlen : (densePositions N).length = N := by
    simp only [densePositions, List.length_map, List.length_range]
  have hNne : ((N : ℚ) - 1) ≠ 0 := by
    have h2 : (2 : ℚ) ≤ (N : ℚ) := by exact_mod_cast hN
    intro h; linarith
  refine ⟨hlen, ?_, ?_, hget⟩
  · rw [List.head?_eq_getElem?, hget 0 (by omega)]
    norm_num
  · rw [List.getLast?_eq_getElem?, hlen, hget (N - 1) (by omega)]
    have hcast : ((N - 1 : ℕ) : ℚ) = (N : ℚ) - 1 := by
      push_cast [Nat.cast_sub (by omega : 1 ≤ N)]; ring
    rw [hcast, div_self hNne]

/-- C4: for every sample count N among 16, 512 and 4096, the dense sample
generator produces exactly N samples whose positions satisfy
positions[i] = i / (N-1), so positions[0] is exactly 0.0 and
positions[N-1] is exactly 1.0. -/
theorem c4_dense_sample_generator (N : ℕ)
    (hN : N = 16 ∨ N = 512 ∨ N = 4096) :
    (densePositions N).length = N ∧
    (densePositions N).head? = some 0 ∧
    (densePositions N).getLast? = some 1 ∧
    ∀ i : ℕ, i < N → (densePositions N)[i]? = some ((i : ℚ) / ((N : ℚ) - 1)) := by
  rcases hN with h | h | h <;> subst h <;>
    exact densePositions_spec _ (by norm_num)

/-- Witness for C4 at the concrete count 16. -/
theorem c4_dense_sample_generator_witness :
    (16 = 16 ∨ 16 = 512 ∨ 16 = 4096) ∧
    (densePositions 16).length = 16 ∧
    (densePositions 16).head? = some 0 ∧
    (densePositions 16).getLast? = some 1 ∧
    (densePositions 16)[8]? = some ((8 : ℚ) / ((16 : ℚ) - 1)) :=
  ⟨Or.inl rfl, (c4_dense_sample_generator 16 (Or.inl rfl)).1,
   (c4_dense_sample_generator 16 (Or.inl rfl)).2.1,
   (c4_dense_sample_generator 16 (Or.inl rfl)).2.2.1,
   (c4_dense_sample_generator 16 (Or.inl rfl)).2.2.2 8 (by norm_num)⟩

/-- Unfolding step of the sampler walk: a position strictly below the next
stop and distinct from it is interpolated against that stop. -/
theorem sampleGo_pair (lo hi : ColorStop) (post : List ColorStop) (p : ℚ)
    (h2 : p < hi.1) :
    sampleGo lo (hi :: post) p = lerpStop lo hi p := by
  simp [sampleGo, ne_of_lt h2, h2]

/-- The sampler walk skips every stop strictly below the sampled position
and lands on the bracketing pair. -/
theorem sampleGo_locate (mid : List ColorStop) (c0 lo hi : ColorStop)
    (post : List ColorStop) (p : ℚ)
    (hmid : ∀ s ∈ mid, s.1 < p) (hlo : lo.1 < p) (hhi : p < hi.1) :
    sampleGo c0 (mid ++ lo :: hi :: post) p = lerpStop lo hi p := by
  induction mid generalizing c0 with
  | nil =>
    have hstep : sampleGo c0 (lo :: hi :: post) p = sampleGo lo (hi :: post) p := by
      simp [sampleGo, ne_of_gt hlo, not_lt.mpr hlo.le]
    simp only [List.nil_append]
    rw [hstep]
    exact sampleGo_pair lo hi post p hhi
  | cons s mid ih =>
    have hs : s.1 < p := hmid s (by simp)
    have hstep : sampleGo c0 (s :: (mid ++ lo :: hi :: post)) p
        = sampleGo s (mid ++ lo :: hi :: post) p := by
      simp [sampleGo, ne_of_gt hs, not_lt.mpr hs.le]
    simp only [List.cons_append]
    rw [hstep]
    exact ih s (fun t ht => hmid t (by simp [ht]))

/-- The sampler walk returns the exact color of a stop whose position is
sampled, without interpolation. -/
theorem sampleGo_exact (rest : List ColorStop) (c0 s : ColorStop)
    (hsort : rest.Pairwise (fun a b => a.1 < b.1)) (hs : s ∈ rest) :
    sampleGo c0 rest s.1 = s.2 := by
  induction rest generalizing c0 with
  | nil => cases hs
  | cons y ys ih =>
    rcases List.mem_cons.mp hs with h | h
    · subst h; simp [sampleGo]
    · have hy : y.1 < s.1 := (List.pairwise_cons.mp hsort).1 s h
      have hstep : sampleGo c0 (y :: ys) s.1 = sampleGo y ys s.1 := by
        simp [sampleGo, ne_of_gt hy, not_lt.mpr hy.le]
      rw [hstep]
      exact ih y (List.pairwise_cons.mp hsort).2 h

/-- Sampling a position strictly between the adjacent stops lo and hi
interpolates between exactly those two stops. -/
theorem sample_between (pre post : List ColorStop) (lo hi : ColorStop)
    (p : ℚ) (hpre : ∀ s ∈ pre, s.1 < p) (h0 : 0 ≤ lo.1) (hlo : lo.1 < p)
    (hhi : p < hi.1) (h1 : hi.1 ≤ 1) :
    sample (pre ++ lo :: hi :: post) p = lerpStop lo hi p := by
  have hp0 : (0 : ℚ) ≤ p := le_trans h0 hlo.le
  have hp1 : p ≤ 1 := le_trans hhi.le h1
  have hq : max 0 (min 1 p) = p := by rw [min_eq_right hp1, max_eq_right hp0]
  cases pre with
  | nil =>
    simp only [List.nil_append, sample, hq]
    rw [if_neg (not_le.mpr hlo)]
    exact sampleGo_pair lo hi post p hhi
  | cons x pre2 =>
    have hx : x.1 < p := hpre x (by simp)
    simp only [List.cons_append, sample, hq]
    rw [if_neg (not_le.mpr hx)]
    exact sampleGo_locate pre2 x lo hi post p
      (fun t ht => hpre t (by simp [ht])) hlo hhi

/-- Sampling exactly at a stop position of a sorted gradient returns that
stop's color. -/
theorem sample_stop (g : Gradient) (s : ColorStop)
    (hsort : g.Pairwise (fun a b => a.1 < b.1)) (hmem : s ∈ g)
    (h0 : 0 ≤ s.1) (h1 : s.1 ≤ 1) :
    sample g s.1 = s.2 := by
  have hq : max 0 (min 1 s.1) = s.1 := by
    rw [min_eq_right h1, max_eq_right h0]
  cases g with
  | nil => cases hmem
  | cons x rest =>
    rcases List.mem_cons.mp hmem with h | h
    · subst h
      simp [sample, hq]
    · have hx : x.1 < s.1 := (List.pairwise_cons.mp hsort).1 s h
      simp only [sample, hq]
      rw [if_neg (not_le.mpr hx)]
      exact sampleGo_exact rest x s (List.pairwise_cons.mp hsort).2 h

/-- C6: sampling a position p strictly between adjacent stops lo and hi
yields channel = round(lo.channel + t * (hi.channel - lo.channel)) with
t = (p - lo.position) / (hi.position - lo.position), clamped to [0,255],
per channel (the definition of lerpStop); the black-to-white gradient
sampled at 0.5 yields exactly (128,128,128), within the claimed plus or
minus 1; and sampling exactly at a stop position returns that stop's
color without interpolation. -/
theorem c6_interpolation :
    (∀ (pre post : List ColorStop) (lo hi : ColorStop) (p : ℚ),
        (∀ s ∈ pre, s.1 < p) → 0 ≤ lo.1 → lo.1 < p → p < hi.1 → hi.1 ≤ 1 →
        sample (pre ++ lo :: hi :: post) p = lerpStop lo hi p) ∧
    sample [(0, (0, 0, 0)), (1, (255, 255, 255))] (1/2) = (128, 128, 128) ∧
    (∀ (g : Gradient) (s : ColorStop),
        g.Pairwise (fun a b => a.1 < b.1) → s ∈ g → 0 ≤ s.1 → s.1 ≤ 1 →
        sample g s.1 = s.2) := by
  refine ⟨sample_between, ?_, sample_stop⟩
  norm_num [sample, sampleGo, lerpStop, lerpChannel, clamp255, qround]
  decide

/-- Witness for C6: the bracketing-interpolation clause at the
black-to-white gradient and p = 1/2, and the stop-exactness clause at the
gradient with a red stop at 1/2. -/
theorem c6_interpolation_witness :
    sample ([] ++ ((0 : ℚ), ((0 : ℕ), (0 : ℕ), (0 : ℕ)))
        :: ((1 : ℚ), ((255 : ℕ), (255 : ℕ), (255 : ℕ))) :: []) (1/2)
      = lerpStop (0, (0, 0, 0)) (1, (255, 255, 255)) (1/2) ∧
    sample [(0, (0, 0, 0)), (1/2, (255, 0, 0)), (1, (255, 255, 255))] (1/2)
      = (255, 0, 0) :=
  ⟨c6_interpolation.1 [] [] (0, (0, 0, 0)) (1, (255, 255, 255)) (1/2)
      (by simp) (by norm_num) (by norm_num) (by norm_num) (by norm_num),
   c6_interpolation.2.2 [(0, (0, 0, 0)), (1/2, (255, 0, 0)), (1, (255, 255, 255))]
      (1/2, (255, 0, 0))
      (by norm_num [List.pairwise_cons]) (by norm_num) (by norm_num) (by norm_num)⟩


/-- Inserting a stop whose position is above every stop of `pre` and below
the final boundary stop places it directly before that boundary stop. -/
theorem insertStop_skip (pre : Gradient) (y : Color) (p : ℚ) (c : Color)
    (hpre : ∀ s ∈ pre, s.1 < p) (hp1 : p < 1) :
    insertStop (pre ++ [(1, y)]) p c = pre ++ [(p, c), (1, y)] := by
  induction pre with
  | nil => simp [insertStop, hp1, ne_of_lt hp1]
  | cons s pre2 ih =>
    have hs : s.1 < p := hpre s (by simp)
    have h2 : insertStop (s :: (pre2 ++ [(1, y)])) p c
        = s :: insertStop (pre2 ++ [(1, y)]) p c := by
      simp [insertStop, not_lt.mpr hs.le, ne_of_gt hs]
    rw [List.cons_append, h2, ih (fun t ht => hpre t (by simp [ht])),
      ← List.cons_append]

/-- Folding a strictly increasing list of interior stops into a gradient
that already holds the boundary stops and some leading interior stops
appends them in order before the final boundary stop. -/
theorem addStops_increasing (l : List (ℚ × Color)) (front : Gradient)
    (c0 cl : Color)
    (hf : ∀ s ∈ front, 0 < s.1 ∧ s.1 < 1)
    (hl : ∀ s ∈ l, 0 < s.1 ∧ s.1 < 1)
    (hfl : ∀ s ∈ front, ∀ t ∈ l, s.1 < t.1)
    (hsl : l.Pairwise (fun a b : ColorStop => a.1 < b.1)) :
    addStops ((0, c0) :: front ++ [(1, cl)]) l
      = (0, c0) :: (front ++ l) ++ [(1, cl)] := by
  induction l generalizing front with
  | nil => simp [addStops]
  | cons x l2 ih =>
    have hx : 0 < x.1 ∧ x.1 < 1 := hl x (by simp)
    have hstep : addStops ((0, c0) :: front ++ [(1, cl)]) (x :: l2)
        = addStops (addColorStop ((0, c0) :: front ++ [(1, cl)]) x.1 x.2) l2 :=
      rfl
    have hguard : addColorStop ((0, c0) :: front ++ [(1, cl)]) x.1 x.2
        = insertStop ((0, c0) :: front ++ [(1, cl)]) x.1 x.2 := by
      simp [addColorStop, hx.1, hx.2]
    have hhead : insertStop ((0, c0) :: front ++ [(1, cl)]) x.1 x.2
        = (0, c0) :: insertStop (front ++ [(1, cl)]) x.1 x.2 := by
      simp [insertStop, not_lt.mpr hx.1.le, ne_of_gt hx.1]
    have hskip : insertStop (front ++ [(1, cl)]) x.1 x.2
        = front ++ [(x.1, x.2), (1, cl)] :=
      insertStop_skip front cl x.1 x.2 (fun s hs => hfl s hs x (by simp)) hx.2
    have hx' : (x.1, x.2) = x := rfl
    have hres : addColorStop ((0, c0) :: front ++ [(1, cl)]) x.1 x.2
        = (0, c0) :: (front ++ [x]) ++ [(1, cl)] := by
      rw [hguard, hhead, hskip, hx']
      simp
    rw [hstep, hres,
      ih (front ++ [x])
        (by
          intro s hs
          rcases List.mem_append.mp hs with h | h
          · exact hf s h
          · simp only [List.mem_singleton] at h
            subst h; exact hx)
        (fun s hs => hl s (by simp [hs]))
        (by
          intro s hs t ht
          rcases List.mem_append.mp hs with h | h
          · exact hfl s h t (by simp [ht])
          · simp only [List.mem_singleton] at h
            subst h
            exact (List.pairwise_cons.mp hsl).1 t ht)
        (List.pairwise_cons.mp hsl).2]
    simp

/-- The gradient built by the emitted create_colormap factory reproduces
the saved gradient exactly when every interior position is unchanged by
the %.6f formatting. -/
theorem emitted_create_colormap_eq (c0 cl : Color) (mid : Gradient)
    (hsort : ((0, c0) :: mid ++ [(1, cl)]).Pairwise
      (fun a b : ColorStop => a.1 < b.1))
    (hfix : ∀ s ∈ mid, round6 s.1 = s.1) :
    emitted_create_colormap ((0, c0) :: mid ++ [(1, cl)])
      = (0, c0) :: mid ++ [(1, cl)] := by
  have h0lt : ∀ t ∈ mid ++ [(1, cl)], (0 : ℚ) < t.1 :=
    (List.pairwise_cons.mp hsort).1
  have hrest : (mid ++ [(1, cl)]).Pairwise (fun a b : ColorStop => a.1 < b.1) :=
    (List.pairwise_cons.mp hsort).2
  have hmid : mid.Pairwise (fun a b : ColorStop => a.1 < b.1) :=
    (List.pairwise_append.mp hrest).1
  have hcross : ∀ s ∈ mid, s.1 < 1 := by
    intro s hs
    exact (List.pairwise_append.mp hrest).2.2 s hs (1, cl) (by simp)
  have hbounds : ∀ s ∈ mid, 0 < s.1 ∧ s.1 < 1 := by
    intro s hs
    exact ⟨h0lt s (List.mem_append_left _ hs), hcross s hs⟩
  have hlast : ((0, c0) :: mid ++ [(1, cl)]).getLast? = some (1, cl) := by
    rw [show (0, c0) :: mid ++ [(1, cl)] = ((0, c0) :: mid) ++ [(1, cl)] from
      by simp]
    exact List.getLast?_concat _
  have hmap : mid.map (fun t : ColorStop => (round6 t.1, t.2)) = mid := by
    conv_rhs => rw [← List.map_id mid]
    refine List.map_congr_left ?_
    intro t ht
    rw [hfix t ht]
    rfl
  have hstep : emitted_create_colormap ((0, c0) :: mid ++ [(1, cl)])
      = addStops
          (EditableColormap_mk c0
            ((((0, c0) :: mid ++ [(1, cl)]).getLast?.getD (0, c0)).2))
          ((((0, c0) :: mid ++ [(1, cl)]).drop 1).dropLast.map
            (fun t : ColorStop => (round6 t.1, t.2))) := rfl
  rw [hstep, hlast]
  have hdrop : (((0, c0) :: mid ++ [(1, cl)]).drop 1).dropLast = mid := by
    simp [List.dropLast_concat]
  rw [hdrop, hmap]
  have hfin := addStops_increasing mid [] c0 cl (by simp) hbounds (by simp) hmid
  simpa [EditableColormap_mk] using hfin

/-- C1 (amended): encoding always uses the fixed sample count 512; decoding
the saved artifact goes through its create_colormap factory; when every
stop position is exactly representable with 6 decimal places (unchanged by
the %.6f format), the decoded Gradient has exactly the original stop
positions and stop colors, and re-sampling the decoded Gradient at the
same 512 sample positions reproduces the stored sample colors with exact
integer channel equality. -/
theorem c1_round_trip (c0 cl : Color) (mid : Gradient)
    (hsort : ((0, c0) :: mid ++ [(1, cl)]).Pairwise
      (fun a b : ColorStop => a.1 < b.1))
    (hfix : ∀ s ∈ mid, round6 s.1 = s.1) :
    load_colormap (toModule (save_colormap ((0, c0) :: mid ++ [(1, cl)])))
      = .ok ((0, c0) :: mid ++ [(1, cl)]) ∧
    ∀ g2,
      load_colormap (toModule (save_colormap ((0, c0) :: mid ++ [(1, cl)])))
        = .ok g2 →
      (densePositions 512).map (sample g2)
        = (save_colormap ((0, c0) :: mid ++ [(1, cl)])).get_rgb_array := by
  have h1 : load_colormap (toModule (save_colormap ((0, c0) :: mid ++ [(1, cl)])))
      = .ok (emitted_create_colormap ((0, c0) :: mid ++ [(1, cl)])) := rfl
  have h2 : load_colormap (toModule (save_colormap ((0, c0) :: mid ++ [(1, cl)])))
      = .ok ((0, c0) :: mid ++ [(1, cl)]) := by
    rw [h1, emitted_create_colormap_eq c0 cl mid hsort hfix]
  refine ⟨h2, ?_⟩
  intro g2 hg2
  rw [h2] at hg2
  have hg : g2 = (0, c0) :: mid ++ [(1, cl)] := (Except.ok.inj hg2).symm
  subst hg
  simp only [save_colormap]

/-- A gradient with an interior stop at 1/3, a position that is not
exactly representable with 6 decimal places. -/
def c1_example_gradient : Gradient :=
  [(0, (0, 0, 0)), (1/3, (255, 0, 0)), (1, (255, 255, 255))]

/-- C1 (counterexample): saving the gradient with a red stop at position
1/3 and loading the result yields stop positions [0, 0.333333, 1], not the
original [0, 1/3, 1]: the %.6f position format makes "same stop positions"
fail, so the round-trip claim as stated is false at this input. -/
theorem c1_round_trip_counterexample :
    (load_colormap (toModule (save_colormap c1_example_gradient))).toOption.map
        (List.map Prod.fst)
      = some [0, 333333/1000000, 1] ∧
    c1_example_gradient.map Prod.fst = [0, 1/3, 1] ∧
    (333333/1000000 : ℚ) ≠ 1/3 := by
  refine ⟨?_, by norm_num [c1_example_gradient], by norm_num⟩
  norm_num [load_colormap, toModule, save_colormap, emitted_create_colormap,
    addStops, addColorStop, insertStop, EditableColormap_mk, round6,
    Except.toOption, c1_example_gradient]

/-- Witness for C1 at a gradient whose interior stop position 1/2 is exact
at 6 decimal places. -/
theorem c1_round_trip_witness :
    load_colormap (toModule (save_colormap
        ((0, (0, 0, 0)) :: [((1 : ℚ)/2, (255, 0, 0))] ++ [(1, (255, 255, 255))])))
      = .ok ((0, (0, 0, 0)) :: [((1 : ℚ)/2, (255, 0, 0))] ++ [(1, (255, 255, 255))]) ∧
    (densePositions 512).map (sample
        ((0, (0, 0, 0)) :: [((1 : ℚ)/2, (255, 0, 0))] ++ [(1, (255, 255, 255))]))
      = (save_colormap
          ((0, (0, 0, 0)) :: [((1 : ℚ)/2, (255, 0, 0))] ++ [(1, (255, 255, 255))])).get_rgb_array :=
  ⟨(c1_round_trip (0, 0, 0) (255, 255, 255) [((1 : ℚ)/2, (255, 0, 0))]
      (by norm_num [List.pairwise_cons])
      (by
        intro s hs
        simp only [List.mem_singleton] at hs
        subst hs
        norm_num [round6])).1,
   (c1_round_trip (0, 0, 0) (255, 255, 255) [((1 : ℚ)/2, (255, 0, 0))]
      (by norm_num [List.pairwise_cons])
      (by
        intro s hs
        simp only [List.mem_singleton] at hs
        subst hs
        norm_num [round6])).2 _
     (c1_round_trip (0, 0, 0) (255, 255, 255) [((1 : ℚ)/2, (255, 0, 0))]
      (by norm_num [List.pairwise_cons])
      (by
        intro s hs
        simp only [List.mem_singleton] at hs
        subst hs
        norm_num [round6])).1⟩

/-- C2 (code evaluation at the failing behavior): whatever gradient is
saved, the emitted rgb array and positions array always hold exactly 512
entries — the sample count is hardcoded, and the emitted get_rgb_array
takes no count parameter at all (src/main.py lines 218-232), contrary to
the accessor contract the claim (and src/tests/test_num_colors.py)
describes. -/
theorem c2_rgb_array_hardcoded_512 (g : Gradient) :
    (save_colormap g).get_rgb_array.length = 512 ∧
    (save_colormap g).get_positions.length = 512 := by
  refine ⟨?_, ?_⟩ <;>
    simp only [save_colormap, densePositions, List.length_map,
      List.length_range]

/-- C3: decode accepts exactly the two artifact shapes — a module with a
create_colormap operation is used directly; otherwise a module with both
color_positions and rgb_colors is rebuilt from the first and last colors
as boundary stops plus the interior (position, color) pairs added in
order; and a module with neither shape fails with the format error. -/
theorem c3_decode_shapes :
    (∀ (m : PyModule) (g : Gradient), m.create_colormap = some g →
        load_colormap m = .ok g) ∧
    (∀ (ps : List ℚ) (cs : List NColor) (c0 cl : NColor),
        cs.head? = some c0 → cs.getLast? = some cl →
        ps.length ≤ 2 ∨ ps.length - 1 ≤ cs.length →
        load_colormap ⟨none, some ps, some cs⟩
          = .ok (addStops (EditableColormap_mk (qcolor c0) (qcolor cl))
              (interiorPairs ps cs))) ∧
    (∀ m : PyModule, m.create_colormap = none →
        m.color_positions = none ∨ m.rgb_colors = none →
        load_colormap m = .error .formatError) := by
  refine ⟨?_, ?_, ?_⟩
  · intro m g h
    simp [load_colormap, h]
  · intro ps cs c0 cl hc0 hcl hlen
    simp only [load_colormap]
    rw [hc0, hcl]
    simp only [if_pos hlen]
  · intro m h1 h2
    obtain ⟨mc, mp, mr⟩ := m
    simp only at h1
    subst h1
    rcases h2 with h | h <;> simp only at h <;> subst h
    · simp [load_colormap]
    · cases mp <;> simp [load_colormap]

/-- Witness for C3: one module per shape — constructor shape, arrays
shape, and neither. -/
theorem c3_decode_shapes_witness :
    load_colormap ⟨some [(0, (0, 0, 0)), (1, (255, 255, 255))], none, none⟩
      = .ok [(0, (0, 0, 0)), (1, (255, 255, 255))] ∧
    load_colormap ⟨none, some [0, 1/2, 1], some [(0, 0, 0), (1, 0, 0), (1, 1, 1)]⟩
      = .ok (addStops
          (EditableColormap_mk (qcolor (0, 0, 0)) (qcolor (1, 1, 1)))
          (interiorPairs [0, 1/2, 1] [(0, 0, 0), (1, 0, 0), (1, 1, 1)])) ∧
    load_colormap ⟨none, some [0, 1], none⟩ = .error .formatError :=
  ⟨c3_decode_shapes.1 _ _ rfl,
   c3_decode_shapes.2.1 [0, 1/2, 1] [(0, 0, 0), (1, 0, 0), (1, 1, 1)]
     (0, 0, 0) (1, 1, 1) rfl rfl (Or.inr (by simp)),
   c3_decode_shapes.2.2 _ rfl (Or.inr rfl)⟩

/-- C9: a module exposing both a create_colormap operation and the two
parallel arrays decodes through create_colormap, and the decode result is
entirely independent of the arrays. -/
theorem c9_create_colormap_precedence (g : Gradient)
    (ps ps2 : Option (List ℚ)) (cs cs2 : Option (List NColor)) :
    load_colormap ⟨some g, ps, cs⟩ = .ok g ∧
    load_colormap ⟨some g, ps, cs⟩ = load_colormap ⟨some g, ps2, cs2⟩ :=
  ⟨rfl, rfl⟩

/-- Modelled from the spec: the widget operation add_handle_at_relative_pos
(plotpy ColorMapWidget, not part of this repository) adds a handle (stop)
at the given relative position; the gradient model keeps stop positions
unique and ordered (spec §3), so the stop is inserted in position order,
replacing a stop already sitting at that exact position. -/
def add_handle_at_relative_pos (g : Gradient) (p : ℚ) (c : Color) : Gradient :=
  insertStop g p c

/-- The accepted path of add_new_color_stop (src/main.py lines 398-424):
the list of existing stop positions is computed (line 404) but never
consulted — no duplicate-position check is performed, despite the comment
announcing one at line 401 — and the stop is handed to the widget
unconditionally (line 423).  The dialog restricts the position to [0,1]
(line 380). -/
def add_new_color_stop (g : Gradient) (position : ℚ) (color : Color) :
    Gradient :=
  let _existing_positions := g.map (fun s => s.1)
  add_handle_at_relative_pos g position color

/-- Message of the index error raised by an invalid stop index. -/
def msg_index_error : String := "IndexError"

/-- Message of the validation error rejecting a boundary-stop removal. -/
def msg_validation_error : String := "ValidationError"

/-- Modelled from the spec: EditStopColor (widget edit_color_stop, not part
of this repository; spec §4.4): replacing the color of the stop at a valid
index succeeds and keeps its position; an invalid index is an index
error. -/
def edit_color_stop (g : Gradient) (i : ℕ) (c : Color) :
    Except String Gradient :=
  if h : i < g.length then .ok (g.set i ((g.get ⟨i, h⟩).1, c))
  else .error msg_index_error

/-- Modelled from the spec: RemoveStop (the widget's delete-handle
operation, not part of this repository; spec §4.4 and §7): removing the
first or last boundary stop is rejected with a validation error, leaving
the gradient untouched; removing an interior stop deletes it. -/
def remove_stop (g : Gradient) (i : ℕ) : Except String Gradient :=
  if i = 0 ∨ i = g.length - 1 then .error msg_validation_error
  else .ok (g.eraseIdx i)

/-- The gradient used in the C5 code-bug evaluation: black, red at 1/2,
white. -/
def c5_gradient : Gradient :=
  [(0, (0, 0, 0)), (1/2, (255, 0, 0)), (1, (255, 255, 255))]

/-- C5 (code evaluation at the failing input): adding a stop at the
already-occupied position 1/2 is not rejected — no validation error is
raised (the operation's result type has no error outcome at all) and the
gradient is changed, the stop at 1/2 being overwritten with the new
color. -/
theorem c5_duplicate_add_not_rejected :
    add_new_color_stop c5_gradient (1/2) (0, 0, 255)
      = [(0, (0, 0, 0)), (1/2, (0, 0, 255)), (1, (255, 255, 255))] ∧
    add_new_color_stop c5_gradient (1/2) (0, 0, 255) ≠ c5_gradient := by
  refine ⟨?_, ?_⟩ <;>
    norm_num [add_new_color_stop, add_handle_at_relative_pos, insertStop,
      c5_gradient]

/-- The error-dialog text wrapping used by load_colormap's except handler
(src/main.py line 322). -/
def loadFailText (e : String) : String :=
  "Failed to load colormap from file:\n" ++ e

/-- The message of the exceptions raised inside load_colormap's try block
(the str(e) interpolated into the dialog). -/
def errText : LoadErr → String
  | .formatError => "File does not contain valid colormap data"
  | .indexError => "list index out of range"

/-- One save operation at the session boundary (src/main.py lines
166-259): the result is (gradient afterwards, error-dialog message,
message of an exception escaping the operation).  A cancelled file dialog
returns immediately; save_colormap contains no try/except and no message
box, so a failing open/write propagates out uncaught with its message and
no dialog; on every path the gradient is returned unchanged, since save
never mutates it. -/
def save_session (g : Gradient) (file : Option (Except String Unit)) :
    Gradient × Option String × Option String :=
  match file with
  | none => (g, none, none)
  | some (.error e) => (g, none, some e)
  | some (.ok _) => (g, none, none)

/-- One load operation at the session boundary (src/main.py lines
261-323), with the same result shape as save_session: a cancelled dialog
returns immediately; any failure reading or executing the file, and any
decode error, is caught by the except handler (lines 318-323) and shown
in an error dialog carrying the underlying message, the gradient left
unchanged; a successful decode replaces the gradient wholesale. -/
def load_session (g : Gradient) (file : Option (Except String PyModule)) :
    Gradient × Option String × Option String :=
  match file with
  | none => (g, none, none)
  | some (.error e) => (g, some (loadFailText e), none)
  | some (.ok m) =>
    match load_colormap m with
    | .ok g2 => (g2, none, none)
    | .error err => (g, some (loadFailText (errText err)), none)

/-- A concrete I/O failure message used in the C8 counterexample. -/
def msg_disk_full : String := "disk full"

/-- C8 (counterexample): on a failing write, save shows no user dialog at
all — the dialog component of the outcome is none, while the underlying
exception escapes the operation uncaught — so the claim that for both
save and load an I/O failure is surfaced to the user with the underlying
message is false at this input. -/
theorem c8_save_error_counterexample :
    (save_session [] (some (.error msg_disk_full))).2.1 = none ∧
    (save_session [] (some (.error msg_disk_full))).2.2 = some msg_disk_full :=
  ⟨rfl, rfl⟩

/-- C8 (amended): a failing load is caught and surfaced to the user in an
error dialog carrying the underlying message, with no escaping exception
and the gradient unchanged; a failing save shows no dialog — its
exception escapes the handler-less operation with the underlying message
— and the gradient is likewise unchanged, so both operations abort
without retry and leave the session usable. -/
theorem c8_io_failure_handling (g : Gradient) (e : String) :
    load_session g (some (.error e)) = (g, some (loadFailText e), none) ∧
    save_session g (some (.error e)) = (g, none, some e) :=
  ⟨rfl, rfl⟩

/-- The Gradient invariant (spec §3): stop positions strictly increasing
(hence unique), a stop at position 0.0 first and a stop at position 1.0
last (hence the stop set is non-empty). -/
def GradientInv (g : Gradient) : Prop :=
  g.Pairwise (fun a b : ColorStop => a.1 < b.1) ∧
  g.head?.map Prod.fst = some 0 ∧
  g.getLast?.map Prod.fst = some 1

/-- Every stop of an insertion result is an original stop or the inserted
one. -/
theorem mem_insertStop (g : Gradient) (p : ℚ) (c : Color) (s : ColorStop)
    (h : s ∈ insertStop g p c) : s ∈ g ∨ s = (p, c) := by
  induction g with
  | nil =>
    simp only [insertStop, List.mem_singleton] at h
    exact Or.inr h
  | cons t rest ih =>
    by_cases h1 : p < t.1
    · simp only [insertStop, if_pos h1, List.mem_cons] at h
      rcases h with h | h
      · exact Or.inr h
      · exact Or.inl (List.mem_cons.mpr h)
    · by_cases h2 : p = t.1
      · simp only [insertStop, if_neg h1, if_pos h2, List.mem_cons] at h
        rcases h with h | h
        · exact Or.inr h
        · exact Or.inl (List.mem_cons_of_mem t h)
      · simp only [insertStop, if_neg h1, if_neg h2, List.mem_cons] at h
        rcases h with h | h
        · exact Or.inl (by simp [h])
        · rcases ih h with h3 | h3
          · exact Or.inl (List.mem_cons_of_mem t h3)
          · exact Or.inr h3

/-- Insertion keeps the stops strictly sorted by position. -/
theorem insertStop_pairwise (g : Gradient) (p : ℚ) (c : Color)
    (h : g.Pairwise (fun a b : ColorStop => a.1 < b.1)) :
    (insertStop g p c).Pairwise (fun a b : ColorStop => a.1 < b.1) := by
  induction g with
  | nil => simp [insertStop]
  | cons t rest ih =>
    obtain ⟨ht, hrest⟩ := List.pairwise_cons.mp h
    by_cases h1 : p < t.1
    · rw [show insertStop (t :: rest) p c = (p, c) :: t :: rest from by
        simp [insertStop, h1]]
      refine List.pairwise_cons.mpr ⟨?_, h⟩
      intro u hu
      rcases List.mem_cons.mp hu with h2 | h2
      · subst h2; exact h1
      · exact lt_trans h1 (ht u h2)
    · by_cases h2 : p = t.1
      · rw [show insertStop (t :: rest) p c = (p, c) :: rest from by
          simp [insertStop, h1, h2]]
        refine List.pairwise_cons.mpr ⟨?_, hrest⟩
        intro u hu
        show p < u.1
        rw [h2]
        exact ht u hu
      · rw [show insertStop (t :: rest) p c = t :: insertStop rest p c from by
          simp [insertStop, h1, h2]]
        refine List.pairwise_cons.mpr ⟨?_, ih hrest⟩
        intro u hu
        rcases mem_insertStop rest p c u hu with h3 | h3
        · exact ht u h3
        · subst h3
          exact lt_of_le_of_ne (not_lt.mp h1) (fun heq => h2 heq.symm)

/-- Insertion never empties the stop list. -/
theorem insertStop_ne_nil (g : Gradient) (p : ℚ) (c : Color) :
    insertStop g p c ≠ [] := by
  cases g with
  | nil => simp [insertStop]
  | cons t rest =>
    by_cases h1 : p < t.1 <;> by_cases h2 : p = t.1 <;>
      simp [insertStop, h1, h2]

/-- Insertion at a nonnegative position keeps the stop at position 0
first. -/
theorem insertStop_head (g : Gradient) (p : ℚ) (c : Color)
    (hh : g.head?.map Prod.fst = some 0) (hp : 0 ≤ p) :
    (insertStop g p c).head?.map Prod.fst = some 0 := by
  cases g with
  | nil => simp at hh
  | cons t rest =>
    have ht : t.1 = 0 := by simpa using hh
    by_cases h1 : p < t.1
    · exfalso
      rw [ht] at h1
      exact absurd h1 (not_lt.mpr hp)
    · by_cases h2 : p = t.1
      · rw [show insertStop (t :: rest) p c = (p, c) :: rest from by
          simp [insertStop, h1, h2]]
        simp [h2, ht]
      · rw [show insertStop (t :: rest) p c = t :: insertStop rest p c from by
          simp [insertStop, h1, h2]]
        simpa using ht

/-- Insertion at a position at most 1 keeps the stop at position 1
last. -/
theorem insertStop_getLast (g : Gradient) (p : ℚ) (c : Color)
    (hl : g.getLast?.map Prod.fst = some 1) (hp : p ≤ 1) :
    (insertStop g p c).getLast?.map Prod.fst = some 1 := by
  induction g with
  | nil => simp at hl
  | cons t rest ih =>
    cases rest with
    | nil =>
      have ht : t.1 = 1 := by simpa using hl
      by_cases h1 : p < t.1
      · rw [show insertStop [t] p c = (p, c) :: [t] from by
          simp [insertStop, h1]]
        simp [List.getLast?_cons_cons, ht]
      · by_cases h2 : p = t.1
        · rw [show insertStop [t] p c = [(p, c)] from by
            simp [insertStop, h1, h2]]
          simp [h2, ht]
        · exfalso
          have h3 : t.1 < p :=
            lt_of_le_of_ne (not_lt.mp h1) (fun heq => h2 heq.symm)
          rw [ht] at h3
          exact absurd hp (not_le.mpr h3)
    | cons u rest2 =>
      have hl2 : (u :: rest2).getLast?.map Prod.fst = some 1 := by
        rwa [List.getLast?_cons_cons] at hl
      by_cases h1 : p < t.1
      · rw [show insertStop (t :: u :: rest2) p c = (p, c) :: t :: u :: rest2
            from by simp [insertStop, h1]]
        rw [List.getLast?_cons_cons, List.getLast?_cons_cons]
        exact hl2
      · by_cases h2 : p = t.1
        · rw [show insertStop (t :: u :: rest2) p c = (p, c) :: u :: rest2
            from by simp [insertStop, h1, h2]]
          rw [List.getLast?_cons_cons]
          exact hl2
        · rw [show insertStop (t :: u :: rest2) p c
              = t :: insertStop (u :: rest2) p c from by
            simp [insertStop, h1, h2]]
          obtain ⟨z, zs, hz⟩ :=
            List.exists_cons_of_ne_nil (insertStop_ne_nil (u :: rest2) p c)
          rw [hz, List.getLast?_cons_cons, ← hz]
          exact ih hl2

/-- Insertion at a position inside [0,1] preserves the Gradient
invariant. -/
theorem insertStop_inv (g : Gradient) (p : ℚ) (c : Color)
    (h : GradientInv g) (h0 : 0 ≤ p) (h1 : p ≤ 1) :
    GradientInv (insertStop g p c) :=
  ⟨insertStop_pairwise g p c h.1, insertStop_head g p c h.2.1 h0,
   insertStop_getLast g p c h.2.2 h1⟩

/-- addColorStop preserves the Gradient invariant (out-of-range positions
are ignored, in-range ones inserted). -/
theorem addColorStop_inv (g : Gradient) (p : ℚ) (c : Color)
    (h : GradientInv g) : GradientInv (addColorStop g p c) := by
  by_cases hc : 0 < p ∧ p < 1
  · simp only [addColorStop, if_pos hc]
    exact insertStop_inv g p c h hc.1.le hc.2.le
  · simp only [addColorStop, if_neg hc]
    exact h

/-- Folding any pair list with addColorStop preserves the Gradient
invariant. -/
theorem addStops_inv (l : List (ℚ × Color)) (g : Gradient)
    (h : GradientInv g) : GradientInv (addStops g l) := by
  induction l generalizing g with
  | nil => exact h
  | cons x l2 ih => exact ih (addColorStop g x.1 x.2) (addColorStop_inv g x.1 x.2 h)

/-- The two-color EditableColormap constructor satisfies the Gradient
invariant. -/
theorem editableColormap_mk_inv (a b : Color) :
    GradientInv (EditableColormap_mk a b) := by
  refine ⟨?_, rfl, rfl⟩
  norm_num [EditableColormap_mk, List.pairwise_cons]

/-- Replacing the color of the stop at a valid index leaves the position
list unchanged. -/
theorem set_same_fst (g : Gradient) (i : ℕ) (c : Color) (h : i < g.length) :
    (g.set i ((g.get ⟨i, h⟩).1, c)).map Prod.fst = g.map Prod.fst := by
  induction g generalizing i with
  | nil => simp at h
  | cons t rest ih =>
    cases i with
    | zero => simp
    | succ j =>
      have hj : j < rest.length := by
        simpa using Nat.lt_of_succ_lt_succ h
      simp only [List.set_cons_succ, List.get_cons_succ, List.map_cons]
      rw [ih j hj]

/-- A gradient with the same position list as an invariant gradient is
itself invariant. -/
theorem inv_of_map_fst_eq (g g2 : Gradient)
    (h : g2.map Prod.fst = g.map Prod.fst) (hg : GradientInv g) :
    GradientInv g2 := by
  obtain ⟨hp, hh, hl⟩ := hg
  refine ⟨?_, ?_, ?_⟩
  · have h1 : (g.map Prod.fst).Pairwise (· < ·) :=
      List.pairwise_map.mpr hp
    rw [← h] at h1
    exact List.pairwise_map.mp h1
  · rw [← List.head?_map, h, List.head?_map]
    exact hh
  · rw [← List.getLast?_map, h, List.getLast?_map]
    exact hl

/-- Editing an existing stop's color preserves the Gradient invariant. -/
theorem edit_color_stop_inv (g : Gradient) (i : ℕ) (c : Color)
    (g2 : Gradient) (h : GradientInv g)
    (he : edit_color_stop g i c = .ok g2) : GradientInv g2 := by
  by_cases hi : i < g.length
  · simp only [edit_color_stop, dif_pos hi] at he
    have h2 : g.set i ((g.get ⟨i, hi⟩).1, c) = g2 := by
      exact Except.ok.inj he
    rw [← h2]
    exact inv_of_map_fst_eq g _ (set_same_fst g i c hi) h
  · simp only [edit_color_stop, dif_neg hi] at he
    cases he

/-- Deleting an element other than the last keeps the last element. -/
theorem eraseIdx_getLast? {α : Type} (l : List α) (i : ℕ)
    (h : i + 1 < l.length) : (l.eraseIdx i).getLast? = l.getLast? := by
  induction l generalizing i with
  | nil => simp at h
  | cons t rest ih =>
    cases i with
    | zero =>
      cases rest with
      | nil => simp at h
      | cons u rest2 =>
        simp [List.getLast?_cons_cons]
    | succ j =>
      cases rest with
      | nil => simp at h
      | cons u rest2 =>
        have hj : j + 1 < (u :: rest2).length := by
          simpa using Nat.lt_of_succ_lt_succ h
        have hne : (u :: rest2).eraseIdx j ≠ [] := by
          have hlen : ((u :: rest2).eraseIdx j).length
              = (u :: rest2).length - 1 := by
            rw [List.length_eraseIdx, if_pos (Nat.lt_of_succ_lt hj)]
          intro hcon
          rw [hcon] at hlen
          simp only [List.length_nil, List.length_cons] at hlen hj
          omega
        obtain ⟨z, zs, hz⟩ := List.exists_cons_of_ne_nil hne
        rw [show (t :: u :: rest2).eraseIdx (j + 1)
            = t :: (u :: rest2).eraseIdx j from rfl, hz,
          List.getLast?_cons_cons, ← hz, ih j hj, List.getLast?_cons_cons]

/-- Deleting an element other than the first keeps the first element. -/
theorem eraseIdx_head? {α : Type} (l : List α) (i : ℕ) (h : i ≠ 0) :
    (l.eraseIdx i).head? = l.head? := by
  cases l with
  | nil => simp
  | cons t rest =>
    cases i with
    | zero => exact absurd rfl h
    | succ j => rfl

/-- Rejecting a boundary removal: removing the first or the last stop is a
validation error. -/
theorem remove_stop_boundary (g : Gradient) (i : ℕ)
    (h : i = 0 ∨ i = g.length - 1) :
    remove_stop g i = .error msg_validation_error := by
  simp only [remove_stop, if_pos h]

/-- A successful (interior) removal preserves the Gradient invariant. -/
theorem remove_stop_ok_inv (g : Gradient) (i : ℕ) (g2 : Gradient)
    (h : GradientInv g) (hr : remove_stop g i = .ok g2) :
    GradientInv g2 := by
  by_cases hb : i = 0 ∨ i = g.length - 1
  · rw [remove_stop_boundary g i hb] at hr
    cases hr
  · simp only [remove_stop, if_neg hb] at hr
    have h2 : g.eraseIdx i = g2 := Except.ok.inj hr
    push_neg at hb
    by_cases hi : i < g.length
    · have hi1 : i + 1 < g.length := by omega
      rw [← h2]
      refine ⟨List.Pairwise.sublist (List.eraseIdx_sublist g i) h.1, ?_, ?_⟩
      · rw [eraseIdx_head? g i hb.1]
        exact h.2.1
      · rw [eraseIdx_getLast? g i hi1]
        exact h.2.2
    · rw [← h2, List.eraseIdx_eq_self.mpr (by omega)]
      exact h

/-- A gradient decoded through the parallel-arrays branch satisfies the
Gradient invariant by construction. -/
theorem load_arrays_inv (ps : List ℚ) (cs : List NColor) (g2 : Gradient)
    (h : load_colormap ⟨none, some ps, some cs⟩ = .ok g2) :
    GradientInv g2 := by
  rcases hc0 : cs.head? with _ | c0 <;>
    rcases hcl : cs.getLast? with _ | cl <;>
    simp only [load_colormap, hc0, hcl] at h <;>
    try exact Except.noConfusion h
  split_ifs at h with hcond
  have h3 : addStops (EditableColormap_mk (qcolor c0) (qcolor cl))
      (interiorPairs ps cs) = g2 := Except.ok.inj h
  rw [← h3]
  exact addStops_inv _ _ (editableColormap_mk_inv _ _)

/-- C7: the session operations preserve the Gradient invariant (unique
strictly ordered positions with boundary stops at 0.0 and 1.0): adding a
stop at a dialog position in [0,1] preserves it; editing a stop's color
preserves it; removing the first or last stop is rejected with the
validation error (leaving the gradient, hence its stop count, unchanged)
while a successful removal preserves the invariant; save never touches
the gradient; a gradient decoded from the parallel-arrays shape satisfies
the invariant by construction; and a load whose decode fails leaves the
gradient unchanged. -/
theorem c7_session_invariants :
    (∀ (g : Gradient) (p : ℚ) (c : Color), GradientInv g → 0 ≤ p → p ≤ 1 →
        GradientInv (add_new_color_stop g p c)) ∧
    (∀ (g : Gradient) (i : ℕ) (c : Color) (g2 : Gradient), GradientInv g →
        edit_color_stop g i c = .ok g2 → GradientInv g2) ∧
    (∀ (g : Gradient) (i : ℕ), i = 0 ∨ i = g.length - 1 →
        remove_stop g i = .error msg_validation_error) ∧
    (∀ (g : Gradient) (i : ℕ) (g2 : Gradient), GradientInv g →
        remove_stop g i = .ok g2 → GradientInv g2) ∧
    (∀ (g : Gradient) (file : Option (Except String Unit)),
        (save_session g file).1 = g) ∧
    (∀ (ps : List ℚ) (cs : List NColor) (g2 : Gradient),
        load_colormap ⟨none, some ps, some cs⟩ = .ok g2 → GradientInv g2) ∧
    (∀ (g : Gradient) (m : PyModule) (err : LoadErr),
        load_colormap m = .error err →
        (load_session g (some (.ok m))).1 = g) := by
  refine ⟨?_, edit_color_stop_inv, remove_stop_boundary, remove_stop_ok_inv,
    ?_, load_arrays_inv, ?_⟩
  · intro g p c hg h0 h1
    exact insertStop_inv g p c hg h0 h1
  · intro g file
    cases file with
    | none => rfl
    | some r => cases r <;> rfl
  · intro g m err h
    simp [load_session, h]

/-- Witness for C7: each clause applied at a concrete gradient. -/
theorem c7_session_invariants_witness :
    GradientInv (add_new_color_stop [(0, (0, 0, 0)), (1, (255, 255, 255))]
      (1/2) (255, 0, 0)) ∧
    GradientInv [((0 : ℚ), ((10 : ℕ), (20 : ℕ), (30 : ℕ))), (1, (255, 255, 255))] ∧
    remove_stop [(0, (0, 0, 0)), (1, (255, 255, 255))] 0
      = .error msg_validation_error ∧
    GradientInv [((0 : ℚ), ((0 : ℕ), (0 : ℕ), (0 : ℕ))), (1, (255, 255, 255))] ∧
    (save_session [(0, (0, 0, 0))] none).1 = [(0, (0, 0, 0))] ∧
    GradientInv (addStops
      (EditableColormap_mk (qcolor (0, 0, 0)) (qcolor (1, 1, 1)))
      (interiorPairs [0, 1] [(0, 0, 0), (1, 1, 1)])) ∧
    (load_session [(0, (0, 0, 0))] (some (.ok ⟨none, none, none⟩))).1
      = [(0, (0, 0, 0))] :=
  ⟨c7_session_invariants.1 [(0, (0, 0, 0)), (1, (255, 255, 255))] (1/2)
      (255, 0, 0)
      ⟨by norm_num [List.pairwise_cons], rfl, rfl⟩ (by norm_num) (by norm_num),
   c7_session_invariants.2.1 [(0, (0, 0, 0)), (1, (255, 255, 255))] 0
      (10, 20, 30) _
      ⟨by norm_num [List.pairwise_cons], rfl, rfl⟩ rfl,
   c7_session_invariants.2.2.1 [(0, (0, 0, 0)), (1, (255, 255, 255))] 0
      (Or.inl rfl),
   c7_session_invariants.2.2.2.1
      [(0, (0, 0, 0)), (1/2, (255, 0, 0)), (1, (255, 255, 255))] 1 _
      ⟨by norm_num [List.pairwise_cons], rfl, rfl⟩ rfl,
   c7_session_invariants.2.2.2.2.1 [(0, (0, 0, 0))] none,
   c7_session_invariants.2.2.2.2.2.1 [0, 1] [(0, 0, 0), (1, 1, 1)] _ rfl,
   c7_session_invariants.2.2.2.2.2.2 [(0, (0, 0, 0))] ⟨none, none, none⟩
      .formatError rfl⟩

/-- Inserting an interior stop into an interior-plus-final-boundary list
keeps the final boundary stop last and the rest interior. -/
theorem insertStop_keeps_bounds (mid : Gradient) (y : Color) (p : ℚ)
    (c : Color) (hmid : ∀ s ∈ mid, 0 < s.1 ∧ s.1 < 1) (hp0 : 0 < p)
    (hp1 : p < 1) :
    ∃ mid2, insertStop (mid ++ [(1, y)]) p c = mid2 ++ [(1, y)] ∧
      ∀ s ∈ mid2, 0 < s.1 ∧ s.1 < 1 := by
  induction mid with
  | nil =>
    refine ⟨[(p, c)], ?_, ?_⟩
    · simp [insertStop, hp1, ne_of_lt hp1]
    · intro s hs
      simp only [List.mem_singleton] at hs
      subst hs
      exact ⟨hp0, hp1⟩
  | cons t rest ih =>
    by_cases h1 : p < t.1
    · refine ⟨(p, c) :: t :: rest, ?_, ?_⟩
      · rw [List.cons_append,
          show insertStop (t :: (rest ++ [(1, y)])) p c
            = (p, c) :: t :: (rest ++ [(1, y)]) from by simp [insertStop, h1]]
        simp
      · intro s hs
        rcases List.mem_cons.mp hs with h | h
        · subst h; exact ⟨hp0, hp1⟩
        · exact hmid s h
    · by_cases h2 : p = t.1
      · refine ⟨(p, c) :: rest, ?_, ?_⟩
        · rw [List.cons_append,
            show insertStop (t :: (rest ++ [(1, y)])) p c
              = (p, c) :: (rest ++ [(1, y)]) from by simp [insertStop, h1, h2]]
          simp
        · intro s hs
          rcases List.mem_cons.mp hs with h | h
          · subst h; exact ⟨hp0, hp1⟩
          · exact hmid s (by simp [h])
      · obtain ⟨mid2, hm, hb⟩ := ih (fun s hs => hmid s (by simp [hs]))
        refine ⟨t :: mid2, ?_, ?_⟩
        · rw [List.cons_append,
            show insertStop (t :: (rest ++ [(1, y)])) p c
              = t :: insertStop (rest ++ [(1, y)]) p c from by
              simp [insertStop, h1, h2],
            hm, List.cons_append]
        · intro s hs
          rcases List.mem_cons.mp hs with h | h
          · rw [h]; exact hmid t (by simp)
          · exact hb s h

/-- Folding any pair list with addColorStop onto a gradient of the form
boundary-stop-0, interior stops, boundary-stop-1 keeps that form. -/
theorem addStops_keeps_bounds (l : List (ℚ × Color)) (x y : Color)
    (mid : Gradient) (hmid : ∀ s ∈ mid, 0 < s.1 ∧ s.1 < 1) :
    ∃ mid2, addStops ((0, x) :: mid ++ [(1, y)]) l
        = (0, x) :: mid2 ++ [(1, y)] ∧ ∀ s ∈ mid2, 0 < s.1 ∧ s.1 < 1 := by
  induction l generalizing mid with
  | nil => exact ⟨mid, rfl, hmid⟩
  | cons t l2 ih =>
    by_cases hg : 0 < t.1 ∧ t.1 < 1
    · obtain ⟨mid2, hm, hb⟩ :=
        insertStop_keeps_bounds mid y t.1 t.2 hmid hg.1 hg.2
      have hstep : addColorStop ((0, x) :: mid ++ [(1, y)]) t.1 t.2
          = (0, x) :: mid2 ++ [(1, y)] := by
        simp only [addColorStop, if_pos hg]
        rw [show insertStop ((0, x) :: mid ++ [(1, y)]) t.1 t.2
            = (0, x) :: insertStop (mid ++ [(1, y)]) t.1 t.2 from by
          simp [insertStop, not_lt.mpr hg.1.le, ne_of_gt hg.1], hm]
        simp
      have hfold : addStops ((0, x) :: mid ++ [(1, y)]) (t :: l2)
          = addStops ((0, x) :: mid2 ++ [(1, y)]) l2 := by
        show addStops (addColorStop ((0, x) :: mid ++ [(1, y)]) t.1 t.2) l2
          = addStops ((0, x) :: mid2 ++ [(1, y)]) l2
        rw [hstep]
      rw [hfold]
      exact ih mid2 hb
    · have hstep : addColorStop ((0, x) :: mid ++ [(1, y)]) t.1 t.2
          = (0, x) :: mid ++ [(1, y)] := by
        simp only [addColorStop, if_neg hg]
      have hfold : addStops ((0, x) :: mid ++ [(1, y)]) (t :: l2)
          = addStops ((0, x) :: mid ++ [(1, y)]) l2 := by
        show addStops (addColorStop ((0, x) :: mid ++ [(1, y)]) t.1 t.2) l2
          = addStops ((0, x) :: mid ++ [(1, y)]) l2
        rw [hstep]
      rw [hfold]
      exact ih mid hmid

/-- C10: when decoding the parallel-arrays shape, the boundary stops take
positions 0.0 and 1.0 from the colormap constructor with the first and
last colors of rgb_colors, and the decode result is completely independent
of the first and last entries of color_positions (they are never read). -/
theorem c10_arrays_boundary_stops :
    (∀ (ps : List ℚ) (cs : List NColor) (c0 cl : NColor),
        cs.head? = some c0 → cs.getLast? = some cl →
        ps.length ≤ 2 ∨ ps.length - 1 ≤ cs.length →
        (load_colormap ⟨none, some ps, some cs⟩).map List.head?
            = .ok (some (0, qcolor c0)) ∧
        (load_colormap ⟨none, some ps, some cs⟩).map List.getLast?
            = .ok (some (1, qcolor cl))) ∧
    (∀ (p0 plast a b : ℚ) (ptail : List ℚ) (cs : List NColor),
        load_colormap ⟨none, some (p0 :: ptail ++ [plast]), some cs⟩
          = load_colormap ⟨none, some (a :: ptail ++ [b]), some cs⟩) := by
  constructor
  · intro ps cs c0 cl hc0 hcl hlen
    have hload : load_colormap ⟨none, some ps, some cs⟩
        = .ok (addStops (EditableColormap_mk (qcolor c0) (qcolor cl))
            (interiorPairs ps cs)) := by
      simp only [load_colormap, hc0, hcl, if_pos hlen]
    obtain ⟨mid2, hm, _⟩ := addStops_keeps_bounds (interiorPairs ps cs)
      (qcolor c0) (qcolor cl) [] (by simp)
    have hmk : addStops (EditableColormap_mk (qcolor c0) (qcolor cl))
        (interiorPairs ps cs) = (0, qcolor c0) :: mid2 ++ [(1, qcolor cl)] := by
      rw [show EditableColormap_mk (qcolor c0) (qcolor cl)
          = (0, qcolor c0) :: ([] : Gradient) ++ [(1, qcolor cl)] from by
        simp [EditableColormap_mk]]
      exact hm
    have hgl : ((0, qcolor c0) :: mid2 ++ [(1, qcolor cl)]).getLast?
        = some (1, qcolor cl) := by
      rw [show (0, qcolor c0) :: mid2 ++ [(1, qcolor cl)]
          = ((0, qcolor c0) :: mid2) ++ [(1, qcolor cl)] from by simp]
      exact List.getLast?_concat _
    constructor
    · rw [hload, hmk]
      simp [Except.map]
    · rw [hload, hmk]
      simp only [Except.map]
      exact congrArg Except.ok hgl
  · intro p0 plast a b ptail cs
    have hlen2 : (p0 :: ptail ++ [plast]).length
        = (a :: ptail ++ [b]).length := by simp
    have hint : interiorPairs (p0 :: ptail ++ [plast]) cs
        = interiorPairs (a :: ptail ++ [b]) cs := by
      unfold interiorPairs
      have h1 : (p0 :: ptail ++ [plast]).length - 2 = ptail.length := by simp
      have h2 : (a :: ptail ++ [b]).length - 2 = ptail.length := by simp
      rw [h1, h2]
      have hd1 : (p0 :: ptail ++ [plast]).drop 1 = ptail ++ [plast] := rfl
      have hd2 : (a :: ptail ++ [b]).drop 1 = ptail ++ [b] := rfl
      rw [hd1, hd2, List.take_left, List.take_left]
    rcases hc0 : cs.head? with _ | c0 <;>
      rcases hcl : cs.getLast? with _ | cl <;>
      simp only [load_colormap, hc0, hcl]
    rw [hint, hlen2]

/-- Witness for C10: a three-entry module whose stored boundary positions
(5 and 7, or anything else) do not matter. -/
theorem c10_arrays_boundary_stops_witness :
    (load_colormap ⟨none, some [0, 1/2, 1],
        some [(0, 0, 0), (1, 0, 0), (1, 1, 1)]⟩).map List.head?
      = .ok (some (0, qcolor (0, 0, 0))) ∧
    (load_colormap ⟨none, some [0, 1/2, 1],
        some [(0, 0, 0), (1, 0, 0), (1, 1, 1)]⟩).map List.getLast?
      = .ok (some (1, qcolor (1, 1, 1))) ∧
    load_colormap ⟨none, some ((5 : ℚ) :: [1/2] ++ [7]),
        some [(0, 0, 0), (1, 0, 0), (1, 1, 1)]⟩
      = load_colormap ⟨none, some ((0 : ℚ) :: [1/2] ++ [1]),
        some [(0, 0, 0), (1, 0, 0), (1, 1, 1)]⟩ :=
  ⟨(c10_arrays_boundary_stops.1 [0, 1/2, 1] [(0, 0, 0), (1, 0, 0), (1, 1, 1)]
      (0, 0, 0) (1, 1, 1) rfl rfl (Or.inr (by simp))).1,
   (c10_arrays_boundary_stops.1 [0, 1/2, 1] [(0, 0, 0), (1, 0, 0), (1, 1, 1)]
      (0, 0, 0) (1, 1, 1) rfl rfl (Or.inr (by simp))).2,
   c10_arrays_boundary_stops.2 5 7 0 1 [1/2] [(0, 0, 0), (1, 0, 0), (1, 1, 1)]⟩
